import Mathlib

/-!
Verification of the OpenQL scheduling core against its specification.

The development shallowly embeds, in Lean 4:

* the object-access analyzer contract of `ql::ir::ObjectAccesses`
  (src/include/ql/ir/ops.h) — the implementation file is not part of the
  sources, so the functional definitions follow the header's documentation
  comments and the specification (marked `Modelled from the spec:`);
* the null-object barrier convention documented on `ql::ir::UniqueReference`
  (src/include/ql/ir/ops.h lines 394-447);
* the resource-constrained list scheduler in its three strategies
  (ASAP, ALAP, UNIFORM) — the scheduler implementation is likewise absent
  from the sources (only the test drivers appear), so it is modelled from
  specification sections 4.3 and 4.4;
* the visualizer's `CircuitData` cycle bookkeeping
  (`calculateAmountOfCycles`, `generateCycles`, `getCycle`), translated
  directly from the source file of the visualizer.
-/

namespace OpenQL

/-! ## Object accesses (analyzer data model)

`prim::AccessMode` and the `UniqueReference` key type are declared outside the
given sources; following the specification's data model (section 3), an access
mode is `read`, `write`, `readwrite` (compound assignment), `literal`
(compile-time constant) or `measure`, and a reference names a qubit, the
implicit measurement bit of a qubit, a classical object, or the distinguished
null object used by barriers. -/

/-- Modelled from the spec: the access-mode classification of
`prim::AccessMode` (the primitives header is not among the sources). -/
inductive AccessMode where
  | read
  | write
  | readwrite
  | literal
  | measure
deriving DecidableEq, Repr

/-- Modelled from the spec: an object reference as wrapped by
`ql::ir::UniqueReference` — a qubit of the main register, the implicit
measurement bit associated with a qubit, the distinguished null object, or
some other (classical) object identified by an index. -/
inductive Ref where
  | qubit (i : Nat)
  | bit (i : Nat)
  | nullObject
  | other (i : Nat)
deriving DecidableEq, Repr

/-- The access map of `ObjectAccesses` (`utils::Map<UniqueReference,
prim::AccessMode>`), modelled as an association list keyed by reference. -/
abbrev Accesses := List (Ref × AccessMode)

/-- Looks up the recorded access mode for a reference. -/
def lookupAccess : Accesses → Ref → Option AccessMode
  | [], _ => none
  | (r, m) :: rest, q => if r = q then some m else lookupAccess rest q

/-- Combination rule from the `add_access` documentation in ops.h: if the
modes match the mode is maintained, otherwise the mode is changed to write. -/
def combineModes (old new : AccessMode) : AccessMode :=
  if old = new then old else .write

/-- Inserts one access in the map, combining with an existing entry for the
same reference per `combineModes`. -/
def insertAccess (acc : Accesses) (r : Ref) (mode : AccessMode) : Accesses :=
  match acc with
  | [] => [(r, mode)]
  | (r', m') :: rest =>
    if r' = r then (r', combineModes m' mode) :: rest
    else (r', m') :: insertAccess rest r mode

/-- Modelled from the spec: `ObjectAccesses::add_access` (its implementation
file is absent; the behavior follows the ops.h documentation): literal access
mode is upgraded to read mode; measure access mode is upgraded to a write
access to both the qubit and the implicit bit associated with it; an access
for an already-recorded object is combined with the recorded one. -/
def add_access (acc : Accesses) (mode : AccessMode) (r : Ref) : Accesses :=
  match mode with
  | .literal => insertAccess acc r .read
  | .measure =>
    match r with
    | .qubit i => insertAccess (insertAccess acc (.qubit i) .write) (.bit i) .write
    | _ => insertAccess acc r .write
  | m => insertAccess acc r m

/-- The analyzer state of `ql::ir::ObjectAccesses`: the access map plus the
two commutation-relaxation toggles declared (with initializer `false`) in
ops.h lines 480-494. -/
structure ObjectAccesses where
  accesses : Accesses
  disable_single_qubit_commutation : Bool
  disable_multi_qubit_commutation : Bool
deriving DecidableEq, Repr

/-- A freshly constructed analyzer: empty access map, both toggles at their
declared default `false` (commutation relaxation active). -/
def ObjectAccesses.init : ObjectAccesses :=
  { accesses := []
    disable_single_qubit_commutation := false
    disable_multi_qubit_commutation := false }

/-- Writes the single-qubit commutation toggle (a plain public field in the
source). -/
def setDisableSingleQubitCommutation (s : ObjectAccesses) (b : Bool) : ObjectAccesses :=
  { s with disable_single_qubit_commutation := b }

/-- Writes the multi-qubit commutation toggle (a plain public field in the
source). -/
def setDisableMultiQubitCommutation (s : ObjectAccesses) (b : Bool) : ObjectAccesses :=
  { s with disable_multi_qubit_commutation := b }

/-- Modelled from the spec: recording the qubit operand of a gate recognized
as a commuting rotation (spec section 4.1). With the relevant toggle at its
default (relaxation active) the access is recorded in a read-like mode so
that two such accesses produce no dependency edge; with the toggle disabled
the access is recorded as a write. The toggle consulted is the multi-qubit
one when the owning instruction has a multi-qubit operand, the single-qubit
one otherwise. -/
def addCommutingAccess (s : ObjectAccesses) (multiQubit : Bool) (r : Ref) : ObjectAccesses :=
  let disabled :=
    if multiQubit then s.disable_multi_qubit_commutation
    else s.disable_single_qubit_commutation
  { s with accesses := add_access s.accesses (if disabled then .write else .read) r }

/-! ## The null-object barrier convention -/

/-- Instruction classification relevant to the null-object convention: a
wait/barrier instruction without explicit operands (a full barrier), a goto
instruction, or any other instruction. -/
inductive InstrKind where
  | fullBarrier
  | gotoInstr
  | custom
deriving DecidableEq, Repr

/-- The implicit access every instruction makes to the null object, following
the `UniqueReference` documentation in ops.h: barriers without operands and
goto instructions write to the null object, while all other instructions
read from it. -/
def implicitNullObjectMode : InstrKind → AccessMode
  | .fullBarrier => .write
  | .gotoInstr => .write
  | .custom => .read

/-- Two access modes on a shared object conflict (produce a dependency edge)
unless both are reads — spec section 4.2 step 2. -/
def conflictsB (a b : AccessMode) : Bool :=
  !(a == .read && b == .read)

/-! ## The resource-constrained list scheduler

The scheduler implementation is not among the given sources (only its test
drivers are), so the three strategies are modelled from specification
sections 4.3 and 4.4. An instruction enters the scheduler with a fixed
duration in cycles and a declared set of resource usages: pairs of a resource
unit and a cycle offset relative to the instruction's own start at which the
unit is held. The dependency graph is consumed as a list of edges
`(u, v)` over instruction indices, each edge's latency being the duration of
its source `u`; the graph builder emits only forward edges (`u < v` in
program order). -/

/-- Modelled from the spec: the per-instruction data the scheduler consumes —
a duration in cycles and the declared resource usages (resource unit, cycle
offset from the instruction's start). -/
structure Instr where
  duration : Nat
  uses : List (Nat × Nat)
deriving DecidableEq, Repr

instance : Inhabited Instr := ⟨⟨0, []⟩⟩

/-- Duration of the instruction at index `k` of the program. -/
def durOf (P : List Instr) (k : Nat) : Nat :=
  (P.getD k default).duration

/-- Resource usages of the instruction at index `k` of the program. -/
def usesOf (P : List Instr) (k : Nat) : List (Nat × Nat) :=
  (P.getD k default).uses

/-! ### ASAP

ASAP processes instructions in program order (a topological order, since all
edges point forward). The partial schedule is the list of cycles already
assigned to the processed prefix; the instruction being placed has index
`cyc.length`. -/

/-- Modelled from the spec: the ASAP candidate cycle for the instruction at
index `cyc.length` — the maximum over its already-placed predecessors of
their cycle plus their duration, defaulting to zero. -/
def asapCandidate (P : List Instr) (E : List (Nat × Nat)) (cyc : List Nat) : Nat :=
  E.foldl (fun acc e =>
    if e.2 = cyc.length ∧ e.1 < cyc.length then
      max acc (cyc.getD e.1 0 + durOf P e.1)
    else acc) 0

/-- Whether the placed instruction at index `j` holds resource `unit` during
absolute cycle `c`. -/
def occupiedBy (P : List Instr) (cyc : List Nat) (j : Nat) (unit c : Nat) : Bool :=
  (usesOf P j).any fun uo => uo.1 == unit && cyc.getD j 0 + uo.2 == c

/-- The resource-feasibility predicate of spec section 4.3: placing an
instruction with usages `i.uses` at cycle `c` is feasible against the partial
schedule iff no placed instruction holds any of the would-be-occupied
(unit, absolute cycle) slots. -/
def resourceFree (P : List Instr) (cyc : List Nat) (i : Instr) (c : Nat) : Bool :=
  i.uses.all fun uo =>
    (List.range cyc.length).all fun j => ! occupiedBy P cyc j uo.1 (c + uo.2)

/-- One past the largest absolute cycle occupied by any placed instruction;
every cycle at or beyond this bound is free on every resource. -/
def occupancyBound (P : List Instr) (cyc : List Nat) : Nat :=
  (List.range cyc.length).foldl (fun acc j =>
    (usesOf P j).foldl (fun acc2 uo => max acc2 (cyc.getD j 0 + uo.2 + 1)) acc) 0

/-- Probes increasing cycles starting at `c`: returns the first cycle in
`[c, c + fuel]` reported free, and `c + fuel` if none below it is. -/
def probeUp (free : Nat → Bool) (c : Nat) : Nat → Nat
  | 0 => c
  | fuel + 1 => if free c then c else probeUp free (c + 1) fuel

/-- One ASAP placement: candidate cycle from the placed predecessors, then an
upward probe for resource feasibility (the probe budget reaches the occupancy
bound, beyond which every cycle is free). -/
def asapStep (P : List Instr) (E : List (Nat × Nat)) (cyc : List Nat) (i : Instr) :
    List Nat :=
  let cand := asapCandidate P E cyc
  let fuel := occupancyBound P cyc - cand
  cyc ++ [probeUp (resourceFree P cyc i) cand fuel]

/-- Modelled from the spec: the ASAP strategy — instructions in program
order, each placed at the first resource-feasible cycle at or after its
dependency-derived candidate cycle. -/
def asap (P : List Instr) (E : List (Nat × Nat)) : List Nat :=
  P.foldl (asapStep P E) []

/-! ### The partial-schedule framework shared by ALAP and UNIFORM

ALAP and UNIFORM assign cycles in an order other than program order, so their
partial schedule maps every instruction index to an optional cycle. -/

/-- A partial schedule: position `k` holds the cycle assigned to instruction
`k`, or `none` while it is unscheduled. -/
abbrev Sched := List (Option Nat)

/-- The lower bound imposed on instruction `k` by its already-placed
predecessors: the maximum of their cycle plus their duration (zero when no
predecessor is placed). -/
def predBound (P : List Instr) (E : List (Nat × Nat)) (sched : Sched) (k : Nat) : Nat :=
  E.foldl (fun acc e =>
    if e.2 = k then
      match sched.getD e.1 none with
      | some cu => max acc (cu + durOf P e.1)
      | none => acc
    else acc) 0

/-- The upper bound imposed on instruction `k` by its already-placed
successors: the minimum over them of their cycle minus `k`'s duration,
starting from `top`. -/
def succBound (P : List Instr) (E : List (Nat × Nat)) (sched : Sched) (k : Nat)
    (top : Int) : Int :=
  E.foldl (fun acc e =>
    if e.1 = k then
      match sched.getD e.2 none with
      | some cv => min acc ((cv : Int) - (durOf P k : Int))
      | none => acc
    else acc) top

/-- Resource feasibility against a partial schedule: no placed instruction
holds any (unit, absolute cycle) slot the instruction would occupy when
started at cycle `c`. -/
def resourceFreeO (P : List Instr) (sched : Sched) (i : Instr) (c : Nat) : Bool :=
  i.uses.all fun uo =>
    (List.range sched.length).all fun j =>
      match sched.getD j none with
      | some cj => ! (usesOf P j).any fun uo2 => uo2.1 == uo.1 && cj + uo2.2 == c + uo.2
      | none => true

/-- Probes decreasing cycles from `c` down to `lo`, returning the first
(largest) cycle reported free, or `none` when none is. -/
def probeDown (free : Nat → Bool) (lo : Nat) : Nat → Option Nat
  | 0 => if lo = 0 && free 0 then some 0 else none
  | c + 1 => if lo ≤ c + 1 && free (c + 1) then some (c + 1) else probeDown free lo c

/-- Runs placement steps over an assignment order; any failing step makes the
whole run fail (no partial schedule is returned). -/
def schedSeq (step : Sched → Nat → Option Sched) : Sched → List Nat → Option Sched
  | sched, [] => some sched
  | sched, k :: rest =>
    match step sched k with
    | some sched' => schedSeq step sched' rest
    | none => none

/-! ### ALAP -/

/-- Modelled from the spec: one ALAP placement for index `k` against horizon
`H` — the candidate cycle is the minimum over placed successors of their
cycle minus `k`'s latency, defaulting to `H` minus `k`'s duration; from the
candidate the strategy probes decreasing cycles for resource feasibility. A
candidate below zero or an exhausted probe is an unschedulable failure. The
probe also never descends below the bound from placed predecessors (vacuous
in the reverse topological processing order, where no predecessor is placed
yet). -/
def alapStep (P : List Instr) (E : List (Nat × Nat)) (H : Nat) (sched : Sched)
    (k : Nat) : Option Sched :=
  let hi := succBound P E sched k ((H : Int) - (durOf P k : Int))
  let lo := predBound P E sched k
  if 0 ≤ hi then
    match probeDown (resourceFreeO P sched (P.getD k default)) lo hi.toNat with
    | some c => some (sched.set k (some c))
    | none => none
  else none

/-- Modelled from the spec: the ALAP strategy — instructions in reverse
topological (reverse program) order, each placed at the last
resource-feasible cycle at or before its successor-derived candidate, against
the caller-supplied horizon `H`. -/
def alap (P : List Instr) (E : List (Nat × Nat)) (H : Nat) : Option Sched :=
  schedSeq (alapStep P E H) (List.replicate P.length none) (List.range P.length).reverse

/-! ### UNIFORM -/

/-- The number of placed instructions active during cycle `c` (an instruction
is active from its start cycle for its duration). -/
def cycleOccupancy (P : List Instr) (sched : Sched) (c : Nat) : Nat :=
  (List.range sched.length).foldl (fun acc j =>
    match sched.getD j none with
    | some cj => if cj ≤ c ∧ c < cj + durOf P j then acc + 1 else acc
    | none => acc) 0

/-- Modelled from the spec: the UNIFORM cycle choice — among the
resource-feasible cycles of the window `[lo, hi]`, the one with the lowest
current occupancy count, remaining ties broken by the earliest cycle; `none`
when the window holds no feasible cycle. -/
def chooseUniformCycle (P : List Instr) (sched : Sched) (i : Instr) (lo hi : Nat) :
    Option Nat :=
  (((List.range (hi + 1 - lo)).map (lo + ·)).filter fun c =>
      resourceFreeO P sched i c).foldl
    (fun best c =>
      match best with
      | none => some c
      | some b => if cycleOccupancy P sched c < cycleOccupancy P sched b then some c else some b)
    none

/-- The dependency-only earliest cycles (a resource-ignoring ASAP pass):
instruction `k`'s earliest cycle is the maximum over predecessors of their
earliest cycle plus their duration. -/
def depEarliest (P : List Instr) (E : List (Nat × Nat)) : List Nat :=
  P.foldl (fun cyc _ => cyc ++ [asapCandidate P E cyc]) []

/-- One step of the dependency-only latest-cycle (resource-ignoring ALAP)
pass; fails when the horizon is too small. -/
def depLatestStep (P : List Instr) (E : List (Nat × Nat)) (H : Nat) (sched : Sched)
    (k : Nat) : Option Sched :=
  let hi := succBound P E sched k ((H : Int) - (durOf P k : Int))
  if 0 ≤ hi then some (sched.set k (some hi.toNat)) else none

/-- The dependency-only latest cycles against horizon `H`. -/
def depLatest (P : List Instr) (E : List (Nat × Nat)) (H : Nat) : Option Sched :=
  schedSeq (depLatestStep P E H) (List.replicate P.length none) (List.range P.length).reverse

/-- Lexicographic comparison of (mobility, program index) keys. -/
def lexLe (a b : Nat × Nat) : Bool :=
  a.1 < b.1 || (a.1 == b.1 && a.2 ≤ b.2)

/-- Inserts an index into a list sorted by `lexLe` on the given key. -/
def insertByKey (key : Nat → Nat × Nat) (k : Nat) : List Nat → List Nat
  | [] => [k]
  | j :: rest => if lexLe (key k) (key j) then k :: j :: rest else j :: insertByKey key k rest

/-- Sorts indices by `lexLe` on the given key (insertion sort). -/
def sortByKey (key : Nat → Nat × Nat) (l : List Nat) : List Nat :=
  l.foldr (insertByKey key) []

/-- Modelled from the spec: one UNIFORM placement for index `k`. The feasible
window starts from the dependency-only earliest/latest bounds `El`/`Ll` and
is clipped by the already-placed neighbors; within it the lowest-occupancy
resource-feasible cycle is committed. An empty window or no feasible cycle is
an unschedulable failure. -/
def uniformStep (P : List Instr) (E : List (Nat × Nat)) (El Ll : List Nat)
    (sched : Sched) (k : Nat) : Option Sched :=
  let lo := max (El.getD k 0) (predBound P E sched k)
  let hi := succBound P E sched k ((Ll.getD k 0 : Int))
  if (lo : Int) ≤ hi then
    match chooseUniformCycle P sched (P.getD k default) lo hi.toNat with
    | some c => some (sched.set k (some c))
    | none => none
  else none

/-- Modelled from the spec: the UNIFORM strategy — mobility windows are
derived from dependency-only ASAP/ALAP bounds against horizon `H`,
instructions are assigned in least-mobility-first order (program order as the
final tie-break), and each takes the lowest-occupancy feasible cycle of its
window. -/
def uniform (P : List Instr) (E : List (Nat × Nat)) (H : Nat) : Option Sched :=
  let El := depEarliest P E
  match depLatest P E H with
  | none => none
  | some LlS =>
    let Ll := LlS.map fun o => o.getD 0
    let order := sortByKey (fun k => (Ll.getD k 0 - El.getD k 0, k)) (List.range P.length)
    schedSeq (uniformStep P E El Ll) (List.replicate P.length none) order

/-! ### Soundness predicates over completed schedules -/

/-- Dependency soundness of a (possibly partial) schedule presented as a map
from instruction index to optional cycle: every dependency edge `u -> v`
whose endpoints are both scheduled satisfies
`cycle(v) >= cycle(u) + duration(u)`. -/
def EdgesRespected (P : List Instr) (E : List (Nat × Nat)) (f : Nat → Option Nat) : Prop :=
  ∀ e ∈ E, ∀ cu cv, f e.1 = some cu → f e.2 = some cv → cu + durOf P e.1 ≤ cv

/-- Instruction `j` of a completed list-form schedule holds resource `unit`
during absolute cycle `c`. -/
def occupiesL (P : List Instr) (S : List Nat) (j unit c : Nat) : Prop :=
  j < S.length ∧ ∃ uo ∈ usesOf P j, uo.1 = unit ∧ S.getD j 0 + uo.2 = c

/-- Resource soundness of a list-form schedule: no two distinct instructions
hold the same resource unit in the same cycle. -/
def ExclusiveL (P : List Instr) (S : List Nat) : Prop :=
  ∀ j1 j2 unit c, j1 ≠ j2 → occupiesL P S j1 unit c → occupiesL P S j2 unit c → False

/-- Instruction `j` of a partial schedule holds resource `unit` during
absolute cycle `c`. -/
def occupiesO (P : List Instr) (sched : Sched) (j unit c : Nat) : Prop :=
  ∃ cj, sched.getD j none = some cj ∧ ∃ uo ∈ usesOf P j, uo.1 = unit ∧ cj + uo.2 = c

/-- Resource soundness of a partial schedule: no two distinct scheduled
instructions hold the same resource unit in the same cycle. -/
def ExclusiveO (P : List Instr) (sched : Sched) : Prop :=
  ∀ j1 j2 unit c, j1 ≠ j2 → occupiesO P sched j1 unit c → occupiesO P sched j2 unit c → False

/-! ## Visualizer cycle bookkeeping (`CircuitData`)

Translated from the visualizer source file. `GateProperties` keeps only the
fields read by the embedded functions (`cycle` and `duration`, both of the
source's signed `Int` type); `MAX_ALLOWED_VISUALIZER_CYCLE` is defined
outside the given sources, so the limit is a parameter `maxAllowed`. Fatal
`QL_FATAL` aborts and the out-of-range `std::vector::at` access become
`Except` errors. -/

/-- The fields of `GateProperties` consulted by the embedded `CircuitData`
functions. -/
structure GateProperties where
  cycle : Int
  duration : Int
deriving DecidableEq, Repr

/-- Fatal error outcomes of the embedded visualizer functions. -/
inductive VisError where
  | invalidCycle (gateCycle maxCycle : Int)
  | outOfRange
  | cycleIndexTooHigh (index : Nat) (maxIndex : Int)
deriving DecidableEq, Repr

/-- The range-checking maximum-cycle scan at the start of
`CircuitData::calculateAmountOfCycles`: each gate with a cycle index outside
`[0, maxAllowed]` triggers a fatal error (reported with the gate's cycle and
the limit); otherwise the running maximum is updated. -/
def scanMaxCycle (maxAllowed : Int) : List GateProperties → Int → Except VisError Int
  | [], acc => .ok acc
  | g :: rest, acc =>
    if g.cycle < 0 ∨ g.cycle > maxAllowed then .error (.invalidCycle g.cycle maxAllowed)
    else scanMaxCycle maxAllowed rest (if g.cycle > acc then g.cycle else acc)

/-- `CircuitData::calculateAmountOfCycles`: scans all gates for the highest
cycle (fatally rejecting out-of-range cycle indices), then unconditionally
reads the last gate — `gates.at(gates.size() - 1)`, which throws on an empty
vector — to extend the count by the last gate's extra duration cycles, and
returns the highest cycle plus one. -/
def calculateAmountOfCycles (maxAllowed : Int) (gates : List GateProperties)
    (cycleDuration : Int) : Except VisError Int := do
  let amountOfCycles ← scanMaxCycle maxAllowed gates 0
  match gates.getLast? with
  | none => .error .outOfRange
  | some lastGate =>
    let lastGateDurationInCycles := Int.tdiv lastGate.duration cycleDuration
    let amountOfCycles :=
      if lastGateDurationInCycles > 1 then amountOfCycles + (lastGateDurationInCycles - 1)
      else amountOfCycles
    .ok (amountOfCycles + 1)

/-- One cycle slot of the visualizer: its index, emptiness flag, cut flag and
the gate partition (a list of chunks, initialized to one empty chunk). -/
structure Cycle where
  index : Int
  empty : Bool
  cut : Bool
  gates : List (List GateProperties)
deriving DecidableEq, Repr

/-- Appends a gate to the first chunk of a cycle's partition
(`cycles[gate.cycle].gates[0].push_back(gate)`). -/
def addToFirstChunk (chunks : List (List GateProperties)) (g : GateProperties) :
    List (List GateProperties) :=
  match chunks with
  | [] => [[g]]
  | chunk :: rest => (chunk ++ [g]) :: rest

/-- The per-gate update of `generateCycles`: the gate's cycle slot is marked
non-empty and the gate is appended to the slot's first chunk. -/
def markGate (gate : GateProperties) (c : Cycle) : Cycle :=
  { c with empty := false, gates := addToFirstChunk c.gates gate }

/-- The gate-placing loop of `generateCycles`: each gate updates the cycle
slot selected by its own cycle field. -/
def placeGates (gates : List GateProperties) (cycles : List Cycle) : List Cycle :=
  gates.foldl (fun cycles gate => List.modify (markGate gate) gate.cycle.toNat cycles) cycles

/-- `CircuitData::generateCycles`: creates `amountOfCycles` cycle slots, slot
`i` carrying index `i`, marked empty, not cut, with a single empty chunk;
then walks the gates marking `cycles[gate.cycle]` non-empty and appending the
gate to that slot's first chunk. -/
def generateCycles (maxAllowed : Int) (gates : List GateProperties)
    (cycleDuration : Int) : Except VisError (List Cycle) := do
  let amountOfCycles ← calculateAmountOfCycles maxAllowed gates cycleDuration
  let base := (List.range amountOfCycles.toNat).map fun (i : Nat) =>
    ({ index := (i : Int), empty := true, cut := false, gates := [[]] } : Cycle)
  .ok (placeGates gates base)

/-- `CircuitData::getCycle`: the bounds guard rejects (fatally) an index
strictly greater than the number of cycles; otherwise `cycles[index]` is
returned. The result is an `Option` so that the guard-passing boundary read
at `index = cycles.size()` — out of bounds in the source — appears as
`.ok none`. -/
def getCycle (cycles : List Cycle) (index : Nat) : Except VisError (Option Cycle) :=
  if index > cycles.length then
    .error (.cycleIndexTooHigh index ((cycles.length : Int) - 1))
  else
    .ok (cycles.get? index)

/-! ## Concrete programs used to instantiate the theorems -/

/-- The qwg-conflict test program: `x(0)` and `y(1)`, both of duration one
cycle, no data dependency, both requiring the single-capacity channel `qwg1`
(resource unit 0) during their start cycle. -/
def qwgP : List Instr := [⟨1, [(0, 0)]⟩, ⟨1, [(0, 0)]⟩]

/-- The single-dimension test program: `x(2)`, `y(3)`, `x(4)` in program
order, all of duration one cycle, no data dependency, all served by the one
shared channel `qwg1` (resource unit 0). -/
def singledimP : List Instr := [⟨1, [(0, 0)]⟩, ⟨1, [(0, 0)]⟩, ⟨1, [(0, 0)]⟩]

/-- A two-instruction chain used to exercise the schedulers: both
instructions hold resource unit 0 at their start cycle and the first is a
dependency source of the second. -/
def chainP : List Instr := [⟨1, [(0, 0)]⟩, ⟨1, [(0, 0)]⟩]

/-- The dependency edge of `chainP`. -/
def chainE : List (Nat × Nat) := [(0, 1)]

/-- A sample cycle slot. -/
def exCycle : Cycle := ⟨0, true, false, [[]]⟩

/-- A gate list whose single gate carries the out-of-range cycle index -1. -/
def badGates : List GateProperties := [⟨-1, 1⟩]

/-- A well-formed two-gate list: cycles 0 and 2, durations 1 and 3. -/
def wGates : List GateProperties := [⟨0, 1⟩, ⟨2, 3⟩]

/-! ## Lemmas about the access map -/

theorem combineModes_write_right (a : AccessMode) : combineModes a .write = .write := by
  cases a <;> rfl

theorem lookupAccess_insertAccess_self (acc : Accesses) (r : Ref) (mo : AccessMode) :
    lookupAccess (insertAccess acc r mo) r =
      some (match lookupAccess acc r with
            | some old => combineModes old mo
            | none => mo) := by
  induction acc with
  | nil => simp [insertAccess, lookupAccess]
  | cons p rest ih =>
    obtain ⟨r', m'⟩ := p
    by_cases h : r' = r
    · subst h
      simp [insertAccess, lookupAccess]
    · simp [insertAccess, lookupAccess, h, ih]

theorem lookupAccess_insertAccess_ne (acc : Accesses) (r q : Ref) (mo : AccessMode)
    (h : q ≠ r) :
    lookupAccess (insertAccess acc r mo) q = lookupAccess acc q := by
  induction acc with
  | nil => simp [insertAccess, lookupAccess, Ne.symm h]
  | cons p rest ih =>
    obtain ⟨r', m'⟩ := p
    by_cases h' : r' = r
    · subst h'
      simp [insertAccess, lookupAccess, Ne.symm h]
    · by_cases h'' : r' = q <;> simp [insertAccess, lookupAccess, h', h'', h, ih]

/-- Inserting with write mode records write regardless of any prior mode. -/
theorem lookupAccess_insertAccess_write (acc : Accesses) (r : Ref) :
    lookupAccess (insertAccess acc r .write) r = some .write := by
  rw [lookupAccess_insertAccess_self]
  cases h : lookupAccess acc r with
  | none => rfl
  | some old => simp [combineModes_write_right]

/-! ## C5 — measure accesses split into two writes -/

/-- C5: an `add_access` call with measure mode on a qubit reference records a
write on the qubit and a write on the qubit's implicit result bit; in
particular no read-mode access is recorded for the qubit. -/
theorem add_access_measure_splits_to_writes (acc : Accesses) (i : Nat) :
    lookupAccess (add_access acc .measure (.qubit i)) (.qubit i) = some .write
    ∧ lookupAccess (add_access acc .measure (.qubit i)) (.bit i) = some .write
    ∧ lookupAccess (add_access acc .measure (.qubit i)) (.qubit i) ≠ some .read := by
  have hq : lookupAccess (add_access acc .measure (.qubit i)) (.qubit i) = some .write := by
    show lookupAccess (insertAccess (insertAccess acc (.qubit i) .write) (.bit i) .write)
        (.qubit i) = some .write
    rw [lookupAccess_insertAccess_ne _ _ _ _ (by simp)]
    exact lookupAccess_insertAccess_write acc (.qubit i)
  refine ⟨hq, ?_, by simp [hq]⟩
  exact lookupAccess_insertAccess_write (insertAccess acc (.qubit i) .write) (.bit i)

/-! ## C6 — access mode combination -/

/-- C6: for two `add_access` calls on the same reference the recorded mode is
the common mode when the two (normalized) modes are identical and write when
they differ — every differing recordable pair involving a write or a
read-write (which combines to a write); a call with literal mode behaves
exactly as a read-mode call. -/
theorem add_access_mode_combination :
    (∀ a : AccessMode, combineModes a a = a)
    ∧ (∀ a b : AccessMode, a ≠ b →
        (a = .write ∨ b = .write ∨ a = .readwrite ∨ b = .readwrite) →
        combineModes a b = .write)
    ∧ (∀ (r : Ref) (m1 m2 : AccessMode),
        (m1 = .read ∨ m1 = .write ∨ m1 = .readwrite) →
        (m2 = .read ∨ m2 = .write ∨ m2 = .readwrite) →
        lookupAccess (add_access (add_access [] m1 r) m2 r) r =
          some (if m1 = m2 then m1 else .write)
        ∧ (m1 ≠ m2 → m1 = .write ∨ m2 = .write ∨ m1 = .readwrite ∨ m2 = .readwrite))
    ∧ (∀ (acc : Accesses) (r : Ref), add_access acc .literal r = add_access acc .read r) := by
  refine ⟨?_, ?_, ?_, ?_⟩
  · intro a; simp [combineModes]
  · intro a b hne _; simp [combineModes, hne]
  · intro r m1 m2 h1 h2
    constructor
    · rcases h1 with h1 | h1 | h1 <;> rcases h2 with h2 | h2 | h2 <;> subst h1 <;> subst h2 <;>
        simp [add_access, insertAccess, lookupAccess, combineModes]
    · intro hne
      rcases h1 with h1 | h1 | h1 <;> rcases h2 with h2 | h2 | h2 <;> subst h1 <;> subst h2 <;>
        simp_all
  · intro acc r; rfl

/-- Witness for C6 at concrete modes: a read access followed by a read-write
access on the same fresh object is recorded as write. -/
theorem add_access_mode_combination_witness :
    (AccessMode.read = .read ∨ AccessMode.read = .write ∨ AccessMode.read = .readwrite)
    ∧ (AccessMode.readwrite = .read ∨ AccessMode.readwrite = .write
        ∨ AccessMode.readwrite = .readwrite)
    ∧ lookupAccess (add_access (add_access [] .read (.other 0)) .readwrite (.other 0))
        (.other 0) = some (if AccessMode.read = .readwrite then .read else .write) :=
  ⟨Or.inl rfl, Or.inr (Or.inr rfl),
    (add_access_mode_combination.2.2.1 (.other 0) .read .readwrite
      (Or.inl rfl) (Or.inr (Or.inr rfl))).1⟩

/-! ## C7 — commutation toggles: defaults and frame -/

/-- C7: both commutation-relaxation toggles default to `false` (relaxation
enabled); writing a toggle leaves every already-recorded access unchanged
(and hence anything derived from the recorded accesses, such as
already-built edges); only accesses added by subsequent calls see the new
toggle value — a commuting qubit access records read under the default and
write once the matching toggle is disabled. -/
theorem commutation_toggle_defaults_and_frame :
    (ObjectAccesses.init.disable_single_qubit_commutation = false
      ∧ ObjectAccesses.init.disable_multi_qubit_commutation = false)
    ∧ (∀ (s : ObjectAccesses) (b : Bool),
        (setDisableSingleQubitCommutation s b).accesses = s.accesses
        ∧ (setDisableMultiQubitCommutation s b).accesses = s.accesses)
    ∧ (∀ (s : ObjectAccesses) (r : Ref), lookupAccess s.accesses r = none →
        (s.disable_single_qubit_commutation = false →
          lookupAccess (addCommutingAccess s false r).accesses r = some .read)
        ∧ (s.disable_multi_qubit_commutation = false →
          lookupAccess (addCommutingAccess s true r).accesses r = some .read)
        ∧ lookupAccess
            (addCommutingAccess (setDisableSingleQubitCommutation s true) false r).accesses r
            = some .write
        ∧ lookupAccess
            (addCommutingAccess (setDisableMultiQubitCommutation s true) true r).accesses r
            = some .write) := by
  refine ⟨⟨rfl, rfl⟩, fun s b => ⟨rfl, rfl⟩, fun s r hfresh => ⟨?_, ?_, ?_, ?_⟩⟩
  · intro hflag
    simp only [addCommutingAccess, hflag, if_neg Bool.false_ne_true, Bool.false_eq_true,
      if_false, add_access]
    rw [lookupAccess_insertAccess_self, hfresh]
  · intro hflag
    simp only [addCommutingAccess, hflag, Bool.false_eq_true, if_false, if_true, add_access]
    rw [lookupAccess_insertAccess_self, hfresh]
  · simp only [addCommutingAccess, setDisableSingleQubitCommutation, Bool.false_eq_true,
      if_false, if_true, add_access]
    exact lookupAccess_insertAccess_write s.accesses r
  · simp only [addCommutingAccess, setDisableMultiQubitCommutation, if_true, add_access]
    exact lookupAccess_insertAccess_write s.accesses r

/-- Witness for C7: starting from the freshly constructed analyzer, a
commuting single-qubit access on qubit 0 records read, and the same access
after disabling single-qubit commutation records write. -/
theorem commutation_toggle_defaults_and_frame_witness :
    lookupAccess ObjectAccesses.init.accesses (.qubit 0) = none
    ∧ ObjectAccesses.init.disable_single_qubit_commutation = false
    ∧ lookupAccess (addCommutingAccess ObjectAccesses.init false (.qubit 0)).accesses
        (.qubit 0) = some .read
    ∧ lookupAccess
        (addCommutingAccess (setDisableSingleQubitCommutation ObjectAccesses.init true) false
          (.qubit 0)).accesses (.qubit 0) = some .write :=
  ⟨rfl, rfl,
    ((commutation_toggle_defaults_and_frame.2.2 ObjectAccesses.init (.qubit 0) rfl).1 rfl),
    (commutation_toggle_defaults_and_frame.2.2 ObjectAccesses.init (.qubit 0) rfl).2.2.1⟩

/-! ## C3 — the null-object convention -/

/-- C3 counterexample: the claim that every instruction implicitly writes to
the null-object reference fails on the documented convention — an ordinary
(custom) instruction reads from the null object rather than writing to it. -/
theorem null_object_not_written_by_every_instruction :
    implicitNullObjectMode .custom = .read ∧ implicitNullObjectMode .custom ≠ .write :=
  ⟨rfl, by decide⟩

/-- C3 as amended: every instruction implicitly accesses the null object —
barriers without operands and goto instructions write to it while every other
instruction reads from it — so a full barrier's implicit access conflicts
with that of every instruction in both directions of program order, which is
what serializes a bare barrier or wait against everything. -/
theorem null_object_barrier_serialization :
    implicitNullObjectMode .fullBarrier = .write
    ∧ implicitNullObjectMode .gotoInstr = .write
    ∧ implicitNullObjectMode .custom = .read
    ∧ (∀ k : InstrKind,
        conflictsB (implicitNullObjectMode .fullBarrier) (implicitNullObjectMode k) = true
        ∧ conflictsB (implicitNullObjectMode k) (implicitNullObjectMode .fullBarrier) = true) := by
  refine ⟨rfl, rfl, rfl, fun k => ?_⟩
  cases k <;> exact ⟨rfl, rfl⟩

/-! ## C9 — the `getCycle` bounds guard -/

/-- C9: for every index strictly below the number of cycles `getCycle`
returns the stored cycle without error; the guard raises the fatal error
exactly when the index strictly exceeds the number of cycles; the boundary
index equal to the number of cycles therefore passes the guard even though no
cycle is stored there (the source then reads `cycles[index]` out of
bounds, modelled as `.ok none`). -/
theorem getCycle_bounds_guard (cycles : List Cycle) (index : Nat) :
    (index < cycles.length →
      getCycle cycles index = .ok (cycles.get? index) ∧ (cycles.get? index).isSome)
    ∧ ((∃ e, getCycle cycles index = .error e) ↔ cycles.length < index)
    ∧ getCycle cycles cycles.length = .ok none := by
  refine ⟨?_, ?_, ?_⟩
  · intro h
    have hng : ¬ index > cycles.length := by omega
    refine ⟨by simp [getCycle, hng], ?_⟩
    simp [List.get?_eq_getElem?, List.getElem?_eq_getElem h]
  · by_cases hgt : cycles.length < index <;> simp [getCycle, hgt]
  · have hng : ¬ cycles.length > cycles.length := lt_irrefl _
    simp [getCycle, hng, List.get?_eq_getElem?]

/-- Witness for C9: on a one-cycle list, index 0 is returned without error
and index 1 (the boundary) passes the guard with no stored cycle. -/
theorem getCycle_bounds_guard_witness :
    (0 < [exCycle].length ∧ getCycle [exCycle] 0 = .ok ([exCycle].get? 0))
    ∧ getCycle [exCycle] [exCycle].length = .ok none :=
  ⟨⟨by decide, ((getCycle_bounds_guard [exCycle] 0).1 (by decide)).1⟩,
    (getCycle_bounds_guard [exCycle] 1).2.2⟩

/-! ## C8 — capacity failure on out-of-range cycle indices -/

theorem scanMaxCycle_error_of_bad (maxA : Int) :
    ∀ (gates : List GateProperties) (acc : Int),
      (∃ g ∈ gates, g.cycle < 0 ∨ g.cycle > maxA) →
      ∃ g ∈ gates, (g.cycle < 0 ∨ g.cycle > maxA) ∧
        scanMaxCycle maxA gates acc = .error (.invalidCycle g.cycle maxA) := by
  intro gates
  induction gates with
  | nil => simp
  | cons g rest ih =>
    intro acc h
    by_cases hg : g.cycle < 0 ∨ g.cycle > maxA
    · exact ⟨g, by simp, hg, by simp [scanMaxCycle, hg]⟩
    · have hrest : ∃ g' ∈ rest, g'.cycle < 0 ∨ g'.cycle > maxA := by
        obtain ⟨g', hmem, hbad⟩ := h
        rcases List.mem_cons.mp hmem with rfl | hmem'
        · exact absurd hbad hg
        · exact ⟨g', hmem', hbad⟩
      obtain ⟨g', hmem, hbad, heq⟩ := ih (if g.cycle > acc then g.cycle else acc) hrest
      exact ⟨g', List.mem_cons_of_mem _ hmem, hbad, by simp [scanMaxCycle, hg, heq]⟩

/-- C8: whenever some gate carries a cycle index outside the representable
range `[0, maxAllowed]`, `calculateAmountOfCycles` aborts with the fatal
capacity error — no cycle count is produced — and the error carries the
offending gate's cycle index together with the limit. -/
theorem calculateAmountOfCycles_capacity_fatal (maxA : Int) (gates : List GateProperties)
    (cd : Int) (h : ∃ g ∈ gates, g.cycle < 0 ∨ g.cycle > maxA) :
    ∃ g ∈ gates, (g.cycle < 0 ∨ g.cycle > maxA) ∧
      calculateAmountOfCycles maxA gates cd = .error (.invalidCycle g.cycle maxA) := by
  obtain ⟨g, hmem, hbad, heq⟩ := scanMaxCycle_error_of_bad maxA gates 0 h
  refine ⟨g, hmem, hbad, ?_⟩
  simp only [calculateAmountOfCycles, heq]
  rfl

/-- Witness for C8: a gate prescheduled at cycle -1 makes the cycle
calculation abort with the capacity error carrying -1 and the limit 10. -/
theorem calculateAmountOfCycles_capacity_fatal_witness :
    (∃ g ∈ badGates, g.cycle < 0 ∨ g.cycle > (10 : Int))
    ∧ ∃ g ∈ badGates, (g.cycle < 0 ∨ g.cycle > (10 : Int)) ∧
        calculateAmountOfCycles 10 badGates 1 = .error (.invalidCycle g.cycle 10) :=
  ⟨by decide, calculateAmountOfCycles_capacity_fatal 10 badGates 1 (by decide)⟩

/-! ## C10 — cycle generation places every gate in bounds -/

theorem scanMaxCycle_ok (maxA : Int) :
    ∀ (gates : List GateProperties) (acc : Int),
      (∀ g ∈ gates, 0 ≤ g.cycle ∧ g.cycle ≤ maxA) →
      ∃ m, scanMaxCycle maxA gates acc = .ok m ∧ acc ≤ m ∧ ∀ g ∈ gates, g.cycle ≤ m := by
  intro gates
  induction gates with
  | nil => exact fun acc _ => ⟨acc, rfl, le_refl acc, by simp⟩
  | cons g rest ih =>
    intro acc hrange
    have hg : ¬ (g.cycle < 0 ∨ g.cycle > maxA) := by
      have := hrange g (by simp)
      omega
    obtain ⟨m, heq, hacc, hmem⟩ :=
      ih (if g.cycle > acc then g.cycle else acc)
        (fun g' h' => hrange g' (List.mem_cons_of_mem _ h'))
    refine ⟨m, by simp [scanMaxCycle, hg, heq], by split at hacc <;> omega, ?_⟩
    intro g' hg'
    rcases List.mem_cons.mp hg' with rfl | h'
    · split at hacc <;> omega
    · exact hmem g' h'

theorem calculateAmountOfCycles_ok (maxA : Int) (gates : List GateProperties) (cd : Int)
    (hne : gates ≠ []) (hrange : ∀ g ∈ gates, 0 ≤ g.cycle ∧ g.cycle ≤ maxA) :
    ∃ n, calculateAmountOfCycles maxA gates cd = .ok n ∧ 1 ≤ n ∧
      ∀ g ∈ gates, g.cycle < n := by
  obtain ⟨m, hscan, hm0, hmax⟩ := scanMaxCycle_ok maxA gates 0 hrange
  obtain ⟨last, hlast⟩ := Option.isSome_iff_exists.mp (List.getLast?_isSome.mpr hne)
  refine ⟨(if Int.tdiv last.duration cd > 1 then m + (Int.tdiv last.duration cd - 1) else m) + 1,
    ?_, ?_, ?_⟩
  · simp only [calculateAmountOfCycles, hscan, hlast]
    rfl
  · split <;> omega
  · intro g hg
    have := hmax g hg
    split <;> omega

theorem length_placeGates (gates : List GateProperties) :
    ∀ cycles : List Cycle, (placeGates gates cycles).length = cycles.length := by
  induction gates with
  | nil => intro cycles; rfl
  | cons g rest ih =>
    intro cycles
    show (placeGates rest (List.modify (markGate g) g.cycle.toNat cycles)).length = _
    rw [ih, List.length_modify]

theorem index_placeGates (gates : List GateProperties) :
    ∀ (cycles : List Cycle) (i : Nat),
      ((placeGates gates cycles)[i]?).map Cycle.index = (cycles[i]?).map Cycle.index := by
  induction gates with
  | nil => intro cycles i; rfl
  | cons g rest ih =>
    intro cycles i
    show ((placeGates rest (List.modify (markGate g) g.cycle.toNat cycles))[i]?).map _ = _
    rw [ih, List.getElem?_modify]
    cases cycles[i]? with
    | none => rfl
    | some c =>
      by_cases h : g.cycle.toNat = i <;> simp [h, markGate]

theorem mem_headD_addToFirstChunk_self (chunks : List (List GateProperties))
    (g : GateProperties) : g ∈ (addToFirstChunk chunks g).headD [] := by
  cases chunks <;> simp [addToFirstChunk]

theorem mem_headD_addToFirstChunk_mono (chunks : List (List GateProperties))
    (g g2 : GateProperties) (h : g ∈ chunks.headD []) :
    g ∈ (addToFirstChunk chunks g2).headD [] := by
  cases chunks with
  | nil => simp at h
  | cons chunk rest => simp [addToFirstChunk]; exact Or.inl h

theorem placeGates_mem_mono (gates : List GateProperties) :
    ∀ (cycles : List Cycle) (s : Nat) (c : Cycle) (g : GateProperties),
      cycles[s]? = some c → g ∈ c.gates.headD [] →
      ∃ c', (placeGates gates cycles)[s]? = some c' ∧ g ∈ c'.gates.headD [] := by
  induction gates with
  | nil => exact fun cycles s c g h hm => ⟨c, h, hm⟩
  | cons g2 rest ih =>
    intro cycles s c g h hm
    show ∃ c', (placeGates rest (List.modify (markGate g2) g2.cycle.toNat cycles))[s]? = _ ∧ _
    by_cases ht : g2.cycle.toNat = s
    · subst ht
      refine ih _ _ (markGate g2 c) g ?_ ?_
      · rw [List.getElem?_modify_eq, h]; rfl
      · exact mem_headD_addToFirstChunk_mono _ _ _ hm
    · refine ih _ _ c g ?_ hm
      rw [List.getElem?_modify_ne _ _ ht, h]

theorem placeGates_mem_new (gates : List GateProperties) :
    ∀ cycles : List Cycle,
      (∀ g ∈ gates, g.cycle.toNat < cycles.length) →
      ∀ g ∈ gates, ∃ c', (placeGates gates cycles)[g.cycle.toNat]? = some c'
        ∧ g ∈ c'.gates.headD [] := by
  induction gates with
  | nil => simp
  | cons g2 rest ih =>
    intro cycles hlen g hg
    rcases List.mem_cons.mp hg with rfl | hmem
    · obtain ⟨c, hc⟩ : ∃ c, cycles[g.cycle.toNat]? = some c :=
        ⟨_, List.getElem?_eq_getElem (hlen g (by simp))⟩
      show ∃ c', (placeGates rest (List.modify (markGate g) g.cycle.toNat cycles))[g.cycle.toNat]? = _ ∧ _
      refine placeGates_mem_mono rest _ _ (markGate g c) g ?_ ?_
      · rw [List.getElem?_modify_eq, hc]; rfl
      · exact mem_headD_addToFirstChunk_self _ _
    · show ∃ c', (placeGates rest (List.modify (markGate g2) g2.cycle.toNat cycles))[g.cycle.toNat]? = _ ∧ _
      refine ih _ ?_ g hmem
      intro g' hg'
      rw [List.length_modify]
      exact hlen g' (List.mem_cons_of_mem _ hg')

/-- C10: `calculateAmountOfCycles` reads the last gate unconditionally, so an
empty gate list is a fatal out-of-range access (non-emptiness is a
precondition); for every non-empty gate list with positive cycle duration
whose gate cycles all lie in the allowed range, the computed amount of cycles
strictly exceeds every gate's cycle index, and `generateCycles` produces that
many slots — slot `i` carrying index `i` — with every gate placed in the
in-bounds slot selected by its own cycle field. -/
theorem generateCycles_places_every_gate (maxA : Int) (gates : List GateProperties)
    (cd : Int) (hne : gates ≠ []) (hcd : 0 < cd)
    (hrange : ∀ g ∈ gates, 0 ≤ g.cycle ∧ g.cycle ≤ maxA) :
    calculateAmountOfCycles maxA [] cd = .error .outOfRange
    ∧ ∃ n, calculateAmountOfCycles maxA gates cd = .ok n
        ∧ (∀ g ∈ gates, g.cycle < n)
        ∧ ∃ cycles, generateCycles maxA gates cd = .ok cycles
            ∧ cycles.length = n.toNat
            ∧ (∀ (i : Nat) (c : Cycle), cycles[i]? = some c → c.index = (i : Int))
            ∧ (∀ g ∈ gates, ∃ c, cycles[g.cycle.toNat]? = some c
                ∧ g ∈ c.gates.headD []) := by
  obtain ⟨n, hok, hn1, hlt⟩ := calculateAmountOfCycles_ok maxA gates cd hne hrange
  set base : List Cycle := (List.range n.toNat).map fun (i : Nat) =>
    ({ index := (i : Int), empty := true, cut := false, gates := [[]] } : Cycle) with hbase
  have hbaselen : base.length = n.toNat := by
    rw [hbase, List.length_map, List.length_range]
  have hbaseget : ∀ i, i < n.toNat →
      base[i]? = some ⟨(i : Int), true, false, [[]]⟩ := by
    intro i hi
    simp [hbase, List.getElem?_map, List.getElem?_range hi]
  have hslot : ∀ g ∈ gates, g.cycle.toNat < base.length := by
    intro g hg
    have h0 := (hrange g hg).1
    have h2 := hlt g hg
    rw [hbaselen]
    omega
  refine ⟨rfl, n, hok, hlt, placeGates gates base, ?_, ?_, ?_, ?_⟩
  · simp only [generateCycles, hok, hbase]
    rfl
  · rw [length_placeGates, hbaselen]
  · intro i c hc
    have := index_placeGates gates base i
    rw [hc] at this
    by_cases hi : i < n.toNat
    · rw [hbaseget i hi] at this
      simpa using this
    · rw [List.getElem?_eq_none (by omega : base.length ≤ i)] at this
      simp at this
  · intro g hg
    obtain ⟨c, hc, hmem⟩ := placeGates_mem_new gates base hslot g hg
    exact ⟨c, hc, hmem⟩

/-- Witness for C10 on the concrete two-gate list `wGates` (cycles 0 and 2,
durations 1 and 3) with unit cycle duration and limit 10. -/
theorem generateCycles_places_every_gate_witness :
    (wGates ≠ [] ∧ (0 : Int) < 1 ∧ ∀ g ∈ wGates, 0 ≤ g.cycle ∧ g.cycle ≤ (10 : Int))
    ∧ (calculateAmountOfCycles 10 [] 1 = .error .outOfRange
        ∧ ∃ n, calculateAmountOfCycles 10 wGates 1 = .ok n
            ∧ (∀ g ∈ wGates, g.cycle < n)
            ∧ ∃ cycles, generateCycles 10 wGates 1 = .ok cycles
                ∧ cycles.length = n.toNat
                ∧ (∀ (i : Nat) (c : Cycle), cycles[i]? = some c → c.index = (i : Int))
                ∧ (∀ g ∈ wGates, ∃ c, cycles[g.cycle.toNat]? = some c
                    ∧ g ∈ c.gates.headD [])) :=
  ⟨⟨by decide, by decide, by decide⟩,
    generateCycles_places_every_gate 10 wGates 1 (by decide) (by decide) (by decide)⟩

/-! ## Fold bound helpers -/

theorem foldl_nat_le {β : Type} (f : Nat → β → Nat) (hmono : ∀ a b, a ≤ f a b) :
    ∀ (l : List β) (a : Nat), a ≤ l.foldl f a := by
  intro l
  induction l with
  | nil => exact fun a => le_refl a
  | cons b rest ih => exact fun a => le_trans (hmono a b) (ih (f a b))

theorem foldl_nat_ge_of_mem {β : Type} (f : Nat → β → Nat) (hmono : ∀ a b, a ≤ f a b)
    (b : β) (t : Nat) (hb : ∀ a, t ≤ f a b) :
    ∀ (l : List β) (a : Nat), b ∈ l → t ≤ l.foldl f a := by
  intro l
  induction l with
  | nil => intro a h; simp at h
  | cons b' rest ih =>
    intro a h
    rcases List.mem_cons.mp h with rfl | h'
    · exact le_trans (hb a) (foldl_nat_le f hmono rest (f a b))
    · exact ih (f a b') h'

theorem foldl_int_le {β : Type} (f : Int → β → Int) (hmono : ∀ a b, f a b ≤ a) :
    ∀ (l : List β) (a : Int), l.foldl f a ≤ a := by
  intro l
  induction l with
  | nil => exact fun a => le_refl a
  | cons b rest ih => exact fun a => le_trans (ih (f a b)) (hmono a b)

theorem foldl_int_le_of_mem {β : Type} (f : Int → β → Int) (hmono : ∀ a b, f a b ≤ a)
    (b : β) (t : Int) (hb : ∀ a, f a b ≤ t) :
    ∀ (l : List β) (a : Int), b ∈ l → l.foldl f a ≤ t := by
  intro l
  induction l with
  | nil => intro a h; simp at h
  | cons b' rest ih =>
    intro a h
    rcases List.mem_cons.mp h with rfl | h'
    · exact le_trans (foldl_int_le f hmono rest (f a b)) (hb a)
    · exact ih (f a b') h'

/-! ## ASAP bound and probe lemmas -/

theorem asapCandidate_ge (P : List Instr) (E : List (Nat × Nat)) (cyc : List Nat)
    (u : Nat) (hmem : (u, cyc.length) ∈ E) (hu : u < cyc.length) :
    cyc.getD u 0 + durOf P u ≤ asapCandidate P E cyc := by
  refine foldl_nat_ge_of_mem _ ?_ (u, cyc.length) _ ?_ E 0 hmem
  · intro a e
    dsimp only
    split
    · exact le_max_left _ _
    · exact le_refl a
  · intro a
    dsimp only
    rw [if_pos ⟨rfl, hu⟩]
    exact le_max_right _ _

theorem occupancyBound_ge (P : List Instr) (cyc : List Nat) (j : Nat) (hj : j < cyc.length)
    (uo : Nat × Nat) (huo : uo ∈ usesOf P j) :
    cyc.getD j 0 + uo.2 + 1 ≤ occupancyBound P cyc := by
  refine foldl_nat_ge_of_mem _ ?_ j _ ?_ (List.range cyc.length) 0 (List.mem_range.mpr hj)
  · intro a j'
    exact foldl_nat_le _ (fun a2 uo2 => le_max_left _ _) (usesOf P j') a
  · intro a
    refine foldl_nat_ge_of_mem _ (fun a2 uo2 => le_max_left _ _) uo _ ?_ (usesOf P j) a huo
    intro a2
    exact le_max_right _ _

theorem occupiedBy_true_iff (P : List Instr) (cyc : List Nat) (j unit c : Nat) :
    occupiedBy P cyc j unit c = true ↔
      ∃ uo ∈ usesOf P j, uo.1 = unit ∧ cyc.getD j 0 + uo.2 = c := by
  simp [occupiedBy, List.any_eq_true, Bool.and_eq_true, beq_iff_eq]

theorem resourceFree_of_ge_bound (P : List Instr) (cyc : List Nat) (i : Instr) (c : Nat)
    (h : occupancyBound P cyc ≤ c) : resourceFree P cyc i c = true := by
  unfold resourceFree
  rw [List.all_eq_true]
  intro uo huo
  rw [List.all_eq_true]
  intro j hj
  rw [Bool.not_eq_true']
  rw [← Bool.not_eq_true, occupiedBy_true_iff]
  rintro ⟨uo2, huo2, _, habs⟩
  have := occupancyBound_ge P cyc j (List.mem_range.mp hj) uo2 huo2
  omega

theorem resourceFree_spec (P : List Instr) (cyc : List Nat) (i : Instr) (c : Nat)
    (h : resourceFree P cyc i c = true) :
    ∀ uo ∈ i.uses, ∀ j, j < cyc.length →
      ¬ ∃ uo2 ∈ usesOf P j, uo2.1 = uo.1 ∧ cyc.getD j 0 + uo2.2 = c + uo.2 := by
  unfold resourceFree at h
  rw [List.all_eq_true] at h
  intro uo huo j hj
  have h1 := h uo huo
  rw [List.all_eq_true] at h1
  have h2 := h1 j (List.mem_range.mpr hj)
  rw [Bool.not_eq_true'] at h2
  rw [← occupiedBy_true_iff P cyc j uo.1 (c + uo.2), h2]
  simp

theorem probeUp_ge (free : Nat → Bool) : ∀ (fuel c : Nat), c ≤ probeUp free c fuel := by
  intro fuel
  induction fuel with
  | zero => exact fun c => le_refl c
  | succ n ih =>
    intro c
    rw [probeUp]
    split
    · exact le_refl c
    · exact le_trans (Nat.le_succ c) (ih (c + 1))

theorem probeUp_free (free : Nat → Bool) :
    ∀ (fuel c : Nat), free (c + fuel) = true → free (probeUp free c fuel) = true := by
  intro fuel
  induction fuel with
  | zero => intro c h; simpa using h
  | succ n ih =>
    intro c h
    rw [probeUp]
    split
    · assumption
    · refine ih (c + 1) ?_
      have : c + 1 + n = c + (n + 1) := by omega
      rw [this]
      exact h

/-- The cycle committed by an ASAP step is resource-feasible. -/
theorem asapStep_free (P : List Instr) (E : List (Nat × Nat)) (cyc : List Nat) (i : Instr) :
    resourceFree P cyc i
      (probeUp (resourceFree P cyc i) (asapCandidate P E cyc)
        (occupancyBound P cyc - asapCandidate P E cyc)) = true := by
  apply probeUp_free
  apply resourceFree_of_ge_bound
  omega

/-! ## ASAP soundness invariants -/

theorem asap_foldl_length (P : List Instr) (E : List (Nat × Nat)) :
    ∀ (l : List Instr) (cyc : List Nat),
      (l.foldl (asapStep P E) cyc).length = cyc.length + l.length := by
  intro l
  induction l with
  | nil => intro cyc; simp
  | cons i rest ih =>
    intro cyc
    rw [List.foldl_cons, ih]
    simp [asapStep]
    omega

theorem asap_length (P : List Instr) (E : List (Nat × Nat)) :
    (asap P E).length = P.length := by
  unfold asap
  rw [asap_foldl_length]
  simp

theorem asap_dep_invariant (P : List Instr) (E : List (Nat × Nat))
    (hE : ∀ e ∈ E, e.1 < e.2) :
    ∀ (l : List Instr) (cyc : List Nat),
      (∀ e ∈ E, e.2 < cyc.length → cyc.getD e.1 0 + durOf P e.1 ≤ cyc.getD e.2 0) →
      ∀ e ∈ E, e.2 < (l.foldl (asapStep P E) cyc).length →
        (l.foldl (asapStep P E) cyc).getD e.1 0 + durOf P e.1 ≤
          (l.foldl (asapStep P E) cyc).getD e.2 0 := by
  intro l
  induction l with
  | nil => intro cyc hinv; exact hinv
  | cons i rest ih =>
    intro cyc hinv
    rw [List.foldl_cons]
    apply ih
    intro e he hlen
    have h12 := hE e he
    show (cyc ++ [_]).getD e.1 0 + durOf P e.1 ≤ (cyc ++ [_]).getD e.2 0
    have hlen' : e.2 < cyc.length + 1 := by
      simpa [asapStep] using hlen
    by_cases hv : e.2 < cyc.length
    · have h1 : e.1 < cyc.length := lt_trans h12 hv
      rw [List.getD_append _ _ _ _ hv, List.getD_append _ _ _ _ h1]
      exact hinv e he hv
    · have hv' : e.2 = cyc.length := by omega
      have h1 : e.1 < cyc.length := by omega
      rw [List.getD_append _ _ _ _ h1,
        List.getD_append_right _ _ _ _ (by omega : cyc.length ≤ e.2)]
      have hmem : (e.1, cyc.length) ∈ E := by
        rw [← hv']
        exact he
      have hge := asapCandidate_ge P E cyc e.1 hmem h1
      have hup := probeUp_ge (resourceFree P cyc i) (occupancyBound P cyc - asapCandidate P E cyc)
        (asapCandidate P E cyc)
      rw [hv']
      simp only [Nat.sub_self]
      exact le_trans hge hup

/-- Dependency soundness of the completed ASAP schedule. -/
theorem asap_edges_respected (P : List Instr) (E : List (Nat × Nat))
    (hE : ∀ e ∈ E, e.1 < e.2) :
    EdgesRespected P E (fun k => (asap P E)[k]?) := by
  intro e he cu cv h1 h2
  have h1' : (asap P E)[e.1]? = some cu := h1
  have h2' : (asap P E)[e.2]? = some cv := h2
  have hlt2 : e.2 < (asap P E).length := by
    by_contra hge
    rw [List.getElem?_eq_none (by omega : (asap P E).length ≤ e.2)] at h2'
    exact Option.noConfusion h2'
  have hd1 : (asap P E).getD e.1 0 = cu := by
    rw [List.getD_eq_getElem?_getD, h1']
    rfl
  have hd2 : (asap P E).getD e.2 0 = cv := by
    rw [List.getD_eq_getElem?_getD, h2']
    rfl
  rw [← hd1, ← hd2]
  have hmain := asap_dep_invariant P E hE P [] (by simp) e he
  have hl := asap_length P E
  unfold asap
  apply hmain
  rw [asap_foldl_length]
  simp only [List.length_nil, Nat.zero_add]
  omega

theorem drop_getD (P : List Instr) (m : Nat) (i : Instr) (rest : List Instr)
    (h : P.drop m = i :: rest) : P.getD m default = i := by
  have h0 : (P.drop m)[0]? = some i := by rw [h]; simp
  rw [List.getElem?_drop] at h0
  rw [List.getD_eq_getElem?_getD]
  simpa using congrArg (Option.getD · default) h0

theorem drop_succ_of_drop_cons (P : List Instr) (m : Nat) (i : Instr) (rest : List Instr)
    (h : P.drop m = i :: rest) : P.drop (m + 1) = rest := by
  have : P.drop (m + 1) = (P.drop m).drop 1 := by
    rw [List.drop_drop]
  rw [this, h]
  rfl

theorem asap_res_invariant (P : List Instr) (E : List (Nat × Nat)) :
    ∀ (l : List Instr) (cyc : List Nat),
      P.drop cyc.length = l → ExclusiveL P cyc →
      ExclusiveL P (l.foldl (asapStep P E) cyc) := by
  intro l
  induction l with
  | nil => intro cyc _ hex; exact hex
  | cons i rest ih =>
    intro cyc hdrop hex
    rw [List.foldl_cons]
    have hi : P.getD cyc.length default = i := drop_getD P cyc.length i rest hdrop
    apply ih
    · show P.drop (asapStep P E cyc i).length = rest
      have hlen : (asapStep P E cyc i).length = cyc.length + 1 := by
        simp [asapStep]
      rw [hlen]
      exact drop_succ_of_drop_cons P cyc.length i rest hdrop
    · -- Exclusivity is preserved by one resource-feasible placement.
      set c := probeUp (resourceFree P cyc i) (asapCandidate P E cyc)
        (occupancyBound P cyc - asapCandidate P E cyc) with hc
      have hfree : resourceFree P cyc i c = true := asapStep_free P E cyc i
      show ExclusiveL P (cyc ++ [c])
      have hocc : ∀ j unit cc, occupiesL P (cyc ++ [c]) j unit cc →
          (j < cyc.length ∧ occupiesL P cyc j unit cc) ∨
          (j = cyc.length ∧ ∃ uo ∈ i.uses, uo.1 = unit ∧ c + uo.2 = cc) := by
        rintro j unit cc ⟨hjlen, uo, huo, hunit, hsum⟩
        rw [List.length_append, List.length_singleton] at hjlen
        by_cases hj : j < cyc.length
        · left
          refine ⟨hj, hj, uo, huo, hunit, ?_⟩
          rw [← hsum, List.getD_append _ _ _ _ hj]
        · right
          have hj' : j = cyc.length := by omega
          subst hj'
          rw [List.getD_append_right _ _ _ _ (le_refl _)] at hsum
          simp only [Nat.sub_self] at hsum
          refine ⟨rfl, uo, ?_, hunit, hsum⟩
          rw [usesOf, hi] at huo
          exact huo
      intro j1 j2 unit cc hne ho1 ho2
      rcases hocc j1 unit cc ho1 with ⟨hj1, hL1⟩ | ⟨hj1, uo1, huo1, hu1, hs1⟩ <;>
        rcases hocc j2 unit cc ho2 with ⟨hj2, hL2⟩ | ⟨hj2, uo2, huo2, hu2, hs2⟩
      · exact hex j1 j2 unit cc hne hL1 hL2
      · subst hj2
        obtain ⟨_, uo1', huo1', hu1', hs1'⟩ := hL1
        exact resourceFree_spec P cyc i c hfree uo2 huo2 j1 hj1
          ⟨uo1', huo1', by rw [hu1', hu2], by rw [hs1', hs2]⟩
      · subst hj1
        obtain ⟨_, uo2', huo2', hu2', hs2'⟩ := hL2
        exact resourceFree_spec P cyc i c hfree uo1 huo1 j2 hj2
          ⟨uo2', huo2', by rw [hu2', hu1], by rw [hs2', hs1]⟩
      · exact hne (hj1.trans hj2.symm)

/-- Resource soundness of the completed ASAP schedule. -/
theorem asap_exclusive (P : List Instr) (E : List (Nat × Nat)) :
    ExclusiveL P (asap P E) := by
  unfold asap
  refine asap_res_invariant P E P [] (by simp) ?_
  rintro j1 j2 unit cc hne ⟨hj1, _⟩ _
  simp at hj1

/-! ## Partial-schedule framework lemmas -/

theorem getD_set {α : Type} (l : List (Option α)) (n m : Nat) (a : Option α) :
    (l.set n a).getD m none = if n = m ∧ n < l.length then a else l.getD m none := by
  by_cases hm : n = m
  · subst hm
    by_cases hl : n < l.length
    · rw [if_pos ⟨rfl, hl⟩, List.getD_eq_getElem?_getD]
      have hset : (l.set n a)[n]? = some a :=
        List.getElem?_set_self'.trans (by simp [List.getElem?_eq_getElem hl])
      rw [hset]
      rfl
    · rw [if_neg (fun h => hl h.2), List.set_eq_of_length_le (by omega)]
  · rw [if_neg (fun h => hm h.1), List.getD_eq_getElem?_getD, List.getD_eq_getElem?_getD,
      List.getElem?_set_ne hm]

theorem getD_some_lt {α : Type} (l : List (Option α)) (j : Nat) (c : α)
    (h : l.getD j none = some c) : j < l.length := by
  by_contra hge
  rw [List.getD_eq_getElem?_getD, List.getElem?_eq_none (by omega : l.length ≤ j)] at h
  simp at h

theorem getD_replicate_none {α : Type} (n j : Nat) :
    (List.replicate n (none : Option α)).getD j none = none := by
  rw [List.getD_eq_getElem?_getD]
  by_cases hj : j < n
  · rw [List.getElem?_eq_getElem (by simpa using hj)]
    simp
  · rw [List.getElem?_eq_none (by simpa using hj)]
    rfl

theorem probeDown_some (free : Nat → Bool) (lo : Nat) :
    ∀ (c r : Nat), probeDown free lo c = some r → lo ≤ r ∧ r ≤ c ∧ free r = true := by
  intro c
  induction c with
  | zero =>
    intro r h
    rw [probeDown] at h
    split at h
    · injection h with h
      subst h
      rename_i hcond
      rw [Bool.and_eq_true, decide_eq_true_eq] at hcond
      exact ⟨by omega, le_refl 0, hcond.2⟩
    · exact Option.noConfusion h
  | succ n ih =>
    intro r h
    rw [probeDown] at h
    split at h
    · injection h with h
      subst h
      rename_i hcond
      rw [Bool.and_eq_true, decide_eq_true_eq] at hcond
      exact ⟨hcond.1, le_refl _, hcond.2⟩
    · obtain ⟨h1, h2, h3⟩ := ih r h
      exact ⟨h1, by omega, h3⟩

theorem predBound_ge (P : List Instr) (E : List (Nat × Nat)) (sched : Sched) (k : Nat)
    (e : Nat × Nat) (hmem : e ∈ E) (hek : e.2 = k) (cu : Nat)
    (hcu : sched.getD e.1 none = some cu) :
    cu + durOf P e.1 ≤ predBound P E sched k := by
  refine foldl_nat_ge_of_mem _ ?_ e _ ?_ E 0 hmem
  · intro a e'
    dsimp only
    by_cases h2 : e'.2 = k
    · rw [if_pos h2]
      cases sched.getD e'.1 none with
      | none => exact le_refl a
      | some cu' => exact le_max_left _ _
    · rw [if_neg h2]
  · intro a
    dsimp only
    rw [if_pos hek, hcu]
    exact le_max_right _ _

theorem succBound_le_top (P : List Instr) (E : List (Nat × Nat)) (sched : Sched)
    (k : Nat) (top : Int) : succBound P E sched k top ≤ top := by
  refine foldl_int_le _ ?_ E top
  intro a e'
  dsimp only
  by_cases h1 : e'.1 = k
  · rw [if_pos h1]
    cases sched.getD e'.2 none with
    | none => exact le_refl a
    | some cv' => exact min_le_left _ _
  · rw [if_neg h1]

theorem succBound_le (P : List Instr) (E : List (Nat × Nat)) (sched : Sched) (k : Nat)
    (top : Int) (e : Nat × Nat) (hmem : e ∈ E) (hek : e.1 = k) (cv : Nat)
    (hcv : sched.getD e.2 none = some cv) :
    succBound P E sched k top ≤ (cv : Int) - (durOf P k : Int) := by
  refine foldl_int_le_of_mem _ ?_ e _ ?_ E top hmem
  · intro a e'
    dsimp only
    by_cases h1 : e'.1 = k
    · rw [if_pos h1]
      cases sched.getD e'.2 none with
      | none => exact le_refl a
      | some cv' => exact min_le_left _ _
    · rw [if_neg h1]
  · intro a
    dsimp only
    rw [if_pos hek, hcv]
    exact min_le_right _ _

theorem resourceFreeO_spec (P : List Instr) (sched : Sched) (i : Instr) (c : Nat)
    (h : resourceFreeO P sched i c = true) :
    ∀ uo ∈ i.uses, ∀ j cj, sched.getD j none = some cj →
      ¬ ∃ uo2 ∈ usesOf P j, uo2.1 = uo.1 ∧ cj + uo2.2 = c + uo.2 := by
  unfold resourceFreeO at h
  rw [List.all_eq_true] at h
  intro uo huo j cj hj
  have hjl : j < sched.length := getD_some_lt _ _ _ hj
  have h1 := h uo huo
  rw [List.all_eq_true] at h1
  have h2 := h1 j (List.mem_range.mpr hjl)
  simp only [hj] at h2
  rw [Bool.not_eq_true'] at h2
  rintro ⟨uo2, huo2, hu, hs⟩
  rw [List.any_eq_false] at h2
  exact h2 uo2 huo2 (by rw [hu, hs]; simp)

/-- One placement preserves dependency soundness when the committed cycle
respects the bounds from the already-placed neighbors. -/
theorem edges_respected_set (P : List Instr) (E : List (Nat × Nat))
    (hE : ∀ e ∈ E, e.1 < e.2) (sched : Sched) (k c : Nat)
    (hinv : EdgesRespected P E (fun j => sched.getD j none))
    (hpred : ∀ e ∈ E, e.2 = k → ∀ cu, sched.getD e.1 none = some cu →
      cu + durOf P e.1 ≤ c)
    (hsucc : ∀ e ∈ E, e.1 = k → ∀ cv, sched.getD e.2 none = some cv →
      c + durOf P k ≤ cv) :
    EdgesRespected P E (fun j => (sched.set k (some c)).getD j none) := by
  intro e he cu cv h1 h2
  simp only [getD_set] at h1 h2
  by_cases h1k : k = e.1 ∧ k < sched.length <;> by_cases h2k : k = e.2 ∧ k < sched.length
  · exact absurd (hE e he) (by omega)
  · rw [if_pos h1k] at h1
    rw [if_neg h2k] at h2
    injection h1 with h1
    subst h1
    rw [← h1k.1]
    exact hsucc e he h1k.1.symm cv h2
  · rw [if_neg h1k] at h1
    rw [if_pos h2k] at h2
    injection h2 with h2
    subst h2
    exact hpred e he h2k.1.symm cu h1
  · rw [if_neg h1k] at h1
    rw [if_neg h2k] at h2
    exact hinv e he cu cv h1 h2

/-- One resource-feasible placement preserves resource exclusivity. -/
theorem exclusive_set (P : List Instr) (sched : Sched) (k c : Nat)
    (hinv : ExclusiveO P sched) (hk : sched.getD k none = none)
    (hfree : resourceFreeO P sched (P.getD k default) c = true) :
    ExclusiveO P (sched.set k (some c)) := by
  have hocc : ∀ j unit cc, occupiesO P (sched.set k (some c)) j unit cc →
      (j ≠ k ∧ occupiesO P sched j unit cc) ∨
      (j = k ∧ ∃ uo ∈ usesOf P k, uo.1 = unit ∧ c + uo.2 = cc) := by
    rintro j unit cc ⟨cj, hj, uo, huo, hu, hs⟩
    rw [getD_set] at hj
    by_cases hcase : k = j ∧ k < sched.length
    · rw [if_pos hcase] at hj
      injection hj with hj
      subst hj
      exact Or.inr ⟨hcase.1.symm, uo, by rw [← hcase.1] at huo; exact huo, hu, hs⟩
    · rw [if_neg hcase] at hj
      refine Or.inl ⟨?_, cj, hj, uo, huo, hu, hs⟩
      rintro rfl
      rw [hk] at hj
      exact Option.noConfusion hj
  intro j1 j2 unit cc hne ho1 ho2
  rcases hocc j1 unit cc ho1 with ⟨hne1, hO1⟩ | ⟨heq1, uo1, huo1, hu1, hs1⟩ <;>
    rcases hocc j2 unit cc ho2 with ⟨hne2, hO2⟩ | ⟨heq2, uo2, huo2, hu2, hs2⟩
  · exact hinv j1 j2 unit cc hne hO1 hO2
  · obtain ⟨cj, hj, uo1', huo1', hu1', hs1'⟩ := hO1
    refine resourceFreeO_spec P sched _ c hfree uo2 ?_ j1 cj hj
      ⟨uo1', huo1', by rw [hu1', hu2], by rw [hs1', hs2]⟩
    rw [usesOf] at huo2
    exact huo2
  · obtain ⟨cj, hj, uo2', huo2', hu2', hs2'⟩ := hO2
    refine resourceFreeO_spec P sched _ c hfree uo1 ?_ j2 cj hj
      ⟨uo2', huo2', by rw [hu2', hu1], by rw [hs2', hs1]⟩
    rw [usesOf] at huo1
    exact huo1
  · exact hne (heq1.trans heq2.symm)

/-- Invariant preservation through a whole placement run: if every step only
sets one still-unscheduled index and preserves the invariant, so does the
run. -/
theorem schedSeq_preserves {step : Sched → Nat → Option Sched} (Inv : Sched → Prop)
    (hstep : ∀ s k s', Inv s → s.getD k none = none → step s k = some s' →
      Inv s' ∧ ∃ c, s' = s.set k (some c)) :
    ∀ (order : List Nat), order.Nodup →
      ∀ s : Sched, (∀ k ∈ order, s.getD k none = none) → Inv s →
      ∀ out, schedSeq step s order = some out → Inv out := by
  intro order
  induction order with
  | nil =>
    intro _ s _ hinv out hout
    simp only [schedSeq] at hout
    injection hout with hout
    subst hout
    exact hinv
  | cons k rest ih =>
    intro hnd s hunp hinv out hout
    cases hsk : step s k with
    | none =>
      simp only [schedSeq, hsk] at hout
      exact Option.noConfusion hout
    | some s' =>
      simp only [schedSeq, hsk] at hout
      obtain ⟨hinv', c, hset⟩ := hstep s k s' hinv (hunp k (by simp)) hsk
      refine ih (List.nodup_cons.mp hnd).2 s' ?_ hinv' out hout
      intro k' hk'
      have hkne : k' ≠ k := by
        rintro rfl
        exact (List.nodup_cons.mp hnd).1 hk'
      rw [hset, getD_set, if_neg (fun h => hkne h.1.symm)]
      exact hunp k' (List.mem_cons_of_mem _ hk')

/-! ## ALAP and UNIFORM step analysis -/

theorem alapStep_cases (P : List Instr) (E : List (Nat × Nat)) (H : Nat) (s : Sched)
    (k : Nat) (s' : Sched) (h : alapStep P E H s k = some s') :
    ∃ c, s' = s.set k (some c)
      ∧ predBound P E s k ≤ c
      ∧ (c : Int) ≤ succBound P E s k ((H : Int) - (durOf P k : Int))
      ∧ resourceFreeO P s (P.getD k default) c = true := by
  simp only [alapStep] at h
  by_cases hhi : (0 : Int) ≤ succBound P E s k ((H : Int) - (durOf P k : Int))
  · rw [if_pos hhi] at h
    cases hpd : probeDown (resourceFreeO P s (P.getD k default)) (predBound P E s k)
        (succBound P E s k ((H : Int) - (durOf P k : Int))).toNat with
    | none =>
      simp only [hpd] at h
      exact Option.noConfusion h
    | some c =>
      simp only [hpd] at h
      injection h with h
      obtain ⟨hlo, hle, hfree⟩ := probeDown_some _ _ _ _ hpd
      exact ⟨c, h.symm, hlo, by omega, hfree⟩
  · rw [if_neg hhi] at h
    exact Option.noConfusion h

theorem foldl_pick_mem (g : Nat → Nat) :
    ∀ (l : List Nat) (b : Option Nat) (c : Nat),
      l.foldl (fun best c' =>
        match best with
        | none => some c'
        | some bb => if g c' < g bb then some c' else some bb) b = some c →
      c ∈ l ∨ b = some c := by
  intro l
  induction l with
  | nil => exact fun b c h => Or.inr h
  | cons x rest ih =>
    intro b c h
    rw [List.foldl_cons] at h
    rcases ih _ c h with hmem | hstep
    · exact Or.inl (List.mem_cons_of_mem _ hmem)
    · cases b with
      | none =>
        injection hstep with h'
        exact Or.inl (h' ▸ List.mem_cons_self _ _)
      | some bb =>
        simp only at hstep
        split at hstep
        · injection hstep with h'
          exact Or.inl (h' ▸ List.mem_cons_self _ _)
        · exact Or.inr hstep

theorem chooseUniformCycle_mem (P : List Instr) (sched : Sched) (i : Instr)
    (lo hi c : Nat) (h : chooseUniformCycle P sched i lo hi = some c) :
    lo ≤ c ∧ c ≤ hi ∧ resourceFreeO P sched i c = true := by
  unfold chooseUniformCycle at h
  rcases foldl_pick_mem (cycleOccupancy P sched) _ none c h with hmem | habs
  · rw [List.mem_filter] at hmem
    obtain ⟨hmem', hfree⟩ := hmem
    rw [List.mem_map] at hmem'
    obtain ⟨m, hm, rfl⟩ := hmem'
    rw [List.mem_range] at hm
    exact ⟨by omega, by omega, hfree⟩
  · exact Option.noConfusion habs

theorem uniformStep_cases (P : List Instr) (E : List (Nat × Nat)) (El Ll : List Nat)
    (s : Sched) (k : Nat) (s' : Sched) (h : uniformStep P E El Ll s k = some s') :
    ∃ c, s' = s.set k (some c)
      ∧ predBound P E s k ≤ c
      ∧ (c : Int) ≤ succBound P E s k ((Ll.getD k 0 : Int))
      ∧ resourceFreeO P s (P.getD k default) c = true := by
  simp only [uniformStep] at h
  by_cases hlohi : ((max (El.getD k 0) (predBound P E s k) : Nat) : Int) ≤
      succBound P E s k ((Ll.getD k 0 : Int))
  · rw [if_pos hlohi] at h
    cases hch : chooseUniformCycle P s (P.getD k default)
        (max (El.getD k 0) (predBound P E s k))
        (succBound P E s k ((Ll.getD k 0 : Int))).toNat with
    | none =>
      simp only [hch] at h
      exact Option.noConfusion h
    | some c =>
      simp only [hch] at h
      injection h with h
      obtain ⟨hlo, hhi, hfree⟩ := chooseUniformCycle_mem _ _ _ _ _ _ hch
      have h0 : (0 : Int) ≤ succBound P E s k ((Ll.getD k 0 : Int)) :=
        le_trans (Int.natCast_nonneg _) hlohi
      exact ⟨c, h.symm, le_trans (le_max_right _ _) hlo, by omega, hfree⟩
  · rw [if_neg hlohi] at h
    exact Option.noConfusion h

/-! ## ALAP and UNIFORM soundness -/

/-- Dependency soundness of a completed ALAP schedule. -/
theorem alap_edges_respected (P : List Instr) (E : List (Nat × Nat)) (H : Nat)
    (hE : ∀ e ∈ E, e.1 < e.2) (sched : Sched) (h : alap P E H = some sched) :
    EdgesRespected P E (fun k => sched.getD k none) := by
  unfold alap at h
  refine schedSeq_preserves (fun s => EdgesRespected P E (fun j => s.getD j none)) ?_
    (List.range P.length).reverse (List.nodup_reverse.mpr (List.nodup_range P.length))
    _ (fun k _ => getD_replicate_none _ _) ?_ sched h
  · intro s k s' hinv hk hstep
    obtain ⟨c, rfl, hlo, hhi, hfree⟩ := alapStep_cases P E H s k s' hstep
    refine ⟨edges_respected_set P E hE s k c hinv ?_ ?_, c, rfl⟩
    · intro e he hek cu hcu
      exact le_trans (predBound_ge P E s k e he hek cu hcu) hlo
    · intro e he hek cv hcv
      have h1 := succBound_le P E s k ((H : Int) - (durOf P k : Int)) e he hek cv hcv
      omega
  · intro e he cu cv h1 h2
    simp [getD_replicate_none] at h1

/-- Resource soundness of a completed ALAP schedule. -/
theorem alap_exclusive (P : List Instr) (E : List (Nat × Nat)) (H : Nat)
    (sched : Sched) (h : alap P E H = some sched) : ExclusiveO P sched := by
  unfold alap at h
  refine schedSeq_preserves (ExclusiveO P) ?_
    (List.range P.length).reverse (List.nodup_reverse.mpr (List.nodup_range P.length))
    _ (fun k _ => getD_replicate_none _ _) ?_ sched h
  · intro s k s' hinv hk hstep
    obtain ⟨c, rfl, hlo, hhi, hfree⟩ := alapStep_cases P E H s k s' hstep
    exact ⟨exclusive_set P s k c hinv hk hfree, c, rfl⟩
  · rintro j1 j2 unit cc hne ⟨cj, hj, _⟩ _
    simp [getD_replicate_none] at hj

theorem insertByKey_perm (key : Nat → Nat × Nat) (k : Nat) :
    ∀ l : List Nat, (insertByKey key k l).Perm (k :: l) := by
  intro l
  induction l with
  | nil => exact List.Perm.refl _
  | cons j rest ih =>
    rw [insertByKey]
    split
    · exact List.Perm.refl _
    · exact (ih.cons j).trans (List.Perm.swap k j rest)

theorem sortByKey_perm (key : Nat → Nat × Nat) :
    ∀ l : List Nat, (sortByKey key l).Perm l := by
  intro l
  induction l with
  | nil => exact List.Perm.refl _
  | cons k rest ih =>
    show (insertByKey key k (sortByKey key rest)).Perm (k :: rest)
    exact (insertByKey_perm key k _).trans (ih.cons k)

/-- Dependency soundness of a completed UNIFORM schedule. -/
theorem uniform_edges_respected (P : List Instr) (E : List (Nat × Nat)) (H : Nat)
    (hE : ∀ e ∈ E, e.1 < e.2) (sched : Sched) (h : uniform P E H = some sched) :
    EdgesRespected P E (fun k => sched.getD k none) := by
  unfold uniform at h
  cases hdl : depLatest P E H with
  | none =>
    rw [hdl] at h
    exact Option.noConfusion h
  | some LlS =>
    rw [hdl] at h
    refine schedSeq_preserves (fun s => EdgesRespected P E (fun j => s.getD j none)) ?_
      (sortByKey (fun k => ((LlS.map fun o => o.getD 0).getD k 0 -
        (depEarliest P E).getD k 0, k)) (List.range P.length))
      (((sortByKey_perm _ _).nodup_iff).mpr (List.nodup_range P.length))
      _ (fun k _ => getD_replicate_none _ _) ?_ sched h
    · intro s k s' hinv hk hstep
      obtain ⟨c, rfl, hlo, hhi, hfree⟩ := uniformStep_cases P E _ _ s k s' hstep
      refine ⟨edges_respected_set P E hE s k c hinv ?_ ?_, c, rfl⟩
      · intro e he hek cu hcu
        exact le_trans (predBound_ge P E s k e he hek cu hcu) hlo
      · intro e he hek cv hcv
        have h1 := succBound_le P E s k
          ((((LlS.map fun o => o.getD 0).getD k 0 : Nat)) : Int) e he hek cv hcv
        omega
    · intro e he cu cv h1 h2
      simp [getD_replicate_none] at h1

/-- Resource soundness of a completed UNIFORM schedule. -/
theorem uniform_exclusive (P : List Instr) (E : List (Nat × Nat)) (H : Nat)
    (sched : Sched) (h : uniform P E H = some sched) : ExclusiveO P sched := by
  unfold uniform at h
  cases hdl : depLatest P E H with
  | none =>
    rw [hdl] at h
    exact Option.noConfusion h
  | some LlS =>
    rw [hdl] at h
    refine schedSeq_preserves (ExclusiveO P) ?_
      (sortByKey (fun k => ((LlS.map fun o => o.getD 0).getD k 0 -
        (depEarliest P E).getD k 0, k)) (List.range P.length))
      (((sortByKey_perm _ _).nodup_iff).mpr (List.nodup_range P.length))
      _ (fun k _ => getD_replicate_none _ _) ?_ sched h
    · intro s k s' hinv hk hstep
      obtain ⟨c, rfl, hlo, hhi, hfree⟩ := uniformStep_cases P E _ _ s k s' hstep
      exact ⟨exclusive_set P s k c hinv hk hfree, c, rfl⟩
    · rintro j1 j2 unit cc hne ⟨cj, hj, _⟩ _
      simp [getD_replicate_none] at hj

/-! ## C1, C2, C4 — scheduler soundness claims -/

/-- C1: for every completed schedule produced by any of the three strategies
(ASAP always completes; ALAP and UNIFORM complete whenever they return a
schedule rather than an unschedulable failure) and every dependency edge
`u -> v` of the built graph (whose edges all point forward in program order),
the assigned cycles satisfy `cycle(v) >= cycle(u) + duration(u)`, the edge
latency being the source's duration. -/
theorem dependency_soundness_all_strategies (P : List Instr) (E : List (Nat × Nat))
    (H : Nat) (hE : ∀ e ∈ E, e.1 < e.2) :
    EdgesRespected P E (fun k => (asap P E)[k]?)
    ∧ (∀ sched, alap P E H = some sched → EdgesRespected P E (fun k => sched.getD k none))
    ∧ (∀ sched, uniform P E H = some sched →
        EdgesRespected P E (fun k => sched.getD k none)) :=
  ⟨asap_edges_respected P E hE,
    fun sched h => alap_edges_respected P E H hE sched h,
    fun sched h => uniform_edges_respected P E H hE sched h⟩

/-- Witness for C1 on the two-instruction chain: all three strategies
complete on it and their schedules respect the edge. -/
theorem dependency_soundness_all_strategies_witness :
    (∀ e ∈ chainE, e.1 < e.2)
    ∧ EdgesRespected chainP chainE (fun k => (asap chainP chainE)[k]?)
    ∧ EdgesRespected chainP chainE (fun k => ([some 2, some 3] : Sched).getD k none)
    ∧ EdgesRespected chainP chainE (fun k => ([some 0, some 1] : Sched).getD k none) :=
  ⟨by decide,
    (dependency_soundness_all_strategies chainP chainE 4 (by decide)).1,
    (dependency_soundness_all_strategies chainP chainE 4 (by decide)).2.1 _ (by decide),
    (dependency_soundness_all_strategies chainP chainE 4 (by decide)).2.2 _ (by decide)⟩

/-- C2: for every completed schedule of each of the three strategies, at most
one instruction occupies a given resource unit in a given cycle; in
particular `x(0)` and `y(1)` — no data dependency, both requiring the
single-capacity channel `qwg1` — are placed by ASAP in cycles 0 and 1, never
in the same cycle. -/
theorem resource_soundness_all_strategies (P : List Instr) (E : List (Nat × Nat))
    (H : Nat) :
    ExclusiveL P (asap P E)
    ∧ (∀ sched, alap P E H = some sched → ExclusiveO P sched)
    ∧ (∀ sched, uniform P E H = some sched → ExclusiveO P sched)
    ∧ asap qwgP [] = [0, 1] :=
  ⟨asap_exclusive P E,
    fun sched h => alap_exclusive P E H sched h,
    fun sched h => uniform_exclusive P E H sched h,
    by decide⟩

/-- Witness for C2: exclusivity of the completed ASAP, ALAP and UNIFORM
schedules of the concrete chain, and the concrete qwg placement. -/
theorem resource_soundness_all_strategies_witness :
    ExclusiveL qwgP (asap qwgP [])
    ∧ ExclusiveO chainP [some 2, some 3]
    ∧ ExclusiveO chainP [some 0, some 1]
    ∧ asap qwgP [] = [0, 1] :=
  ⟨(resource_soundness_all_strategies qwgP [] 4).1,
    (resource_soundness_all_strategies chainP chainE 4).2.1 _ (by decide),
    (resource_soundness_all_strategies chainP chainE 4).2.2.1 _ (by decide),
    (resource_soundness_all_strategies qwgP [] 4).2.2.2⟩

/-- C4: on the three-instruction program `x(2)`, `y(3)`, `x(4)` — durations
one cycle, no data dependency, all three served by the one single-capacity
channel `qwg1` — the ASAP scheduler assigns cycles 0, 1 and 2 in program
order: the channel conflict pushes `y(3)` past `x(2)`, and the
single-dimensional occupancy probe then pushes `x(4)` past both. -/
theorem asap_singledim_cycles : asap singledimP [] = [0, 1, 2] := by decide

end OpenQL
